import Mathlib

/-!
Verification of the exojax MODIT cross-section pipeline against its
natural-language specification.

The repository ships the tutorial and user-guide sources that drive the
pipeline (`documents/userguide/moldb.rst`, the MODIT tutorial); the Python
bodies of `SijT`, `gamma_exomol`, `gamma_natural`, `modit.dgmatrix`,
`initspec.init_modit` and `modit.xsmatrix` are referenced there but not
included, so those operations are modelled from the specification, in exact
arithmetic (`ℝ` for the transcendental formulas, `ℚ` for the grid and
binning algorithms).
-/

namespace Exojax

/-- Reference temperature T_ref = 296 K (moldb.rst: the reference line
strength is the strength at 296 K). -/
def Tref : ℝ := 296

/-- Second radiation constant c₂ = hc/k_B in cm·K. -/
def c2 : ℝ := 1.4387773

/-- Modelled from the spec (the Python body of `exojax.spec.SijT` is not in
the sources; the formula is the one displayed in
`documents/userguide/moldb.rst`): the temperature-dependent line strength,
computed from the stored logarithm `logsij0` of the reference strength and
exponentiated only at the final combination step:
S(T) = q_t⁻¹ · exp(s₀ − c₂·E_low·(1/T − 1/T_ref)) · (1−exp(−c₂·ν/T)) / (1−exp(−c₂·ν/T_ref)). -/
noncomputable def SijT (T logsij0 nuline elow qt : ℝ) : ℝ :=
  Real.exp (logsij0 - c2 * elow * (1 / T - 1 / Tref)) *
    (1 - Real.exp (-c2 * nuline / T)) / (1 - Real.exp (-c2 * nuline / Tref)) / qt

/-- C1: for every layer temperature `T` and every line, the strength returned
by `SijT` (whose stored input is log S₀ and which exponentiates only at the
final combination step, as its definition shows) equals the
partition-function-ratio formula
S(T) = S₀ · exp(−c₂·E_low·(1/T − 1/T_ref)) · (1−exp(−c₂·ν/T)) / (1−exp(−c₂·ν/T_ref)) / q_T. -/
theorem SijT_partition_function_formula (T S0 nuline elow qt : ℝ) (hS : 0 < S0) :
    SijT T (Real.log S0) nuline elow qt =
      S0 * Real.exp (-(c2 * elow * (1 / T - 1 / Tref))) *
        ((1 - Real.exp (-c2 * nuline / T)) / (1 - Real.exp (-c2 * nuline / Tref))) / qt := by
  unfold SijT
  rw [sub_eq_add_neg, Real.exp_add, Real.exp_log hS]
  ring

/-- Witness for C1 at the concrete input S₀ = 2, T = 300, ν = 1, E_low = 1,
q_t = 1. -/
theorem SijT_partition_function_formula_witness :
    (0:ℝ) < 2 ∧
      SijT 300 (Real.log 2) 1 1 1 =
        2 * Real.exp (-(c2 * 1 * (1 / 300 - 1 / Tref))) *
          ((1 - Real.exp (-c2 * 1 / 300)) / (1 - Real.exp (-c2 * 1 / Tref))) / 1 :=
  ⟨by norm_num, SijT_partition_function_formula 300 2 1 1 1 (by norm_num)⟩

/-- C7: evaluating the line-strength formula at T = T_ref with q_T = 1
returns the reference line strength S₀ = exp(logsij0) exactly (the round
trip of the temperature-scaling formula). -/
theorem SijT_roundtrip_at_Tref (logsij0 nuline elow : ℝ) (hnu : 0 < nuline) :
    SijT Tref logsij0 nuline elow 1 = Real.exp logsij0 := by
  unfold SijT
  have hden : 1 - Real.exp (-c2 * nuline / Tref) ≠ 0 := by
    have harg : -c2 * nuline / Tref < 0 := by
      apply div_neg_of_neg_of_pos
      · have : (0:ℝ) < c2 * nuline := by
          apply mul_pos _ hnu
          norm_num [c2]
        linarith
      · norm_num [Tref]
    have := Real.exp_lt_one_iff.mpr harg
    linarith
  rw [sub_self, mul_zero, sub_zero, mul_div_assoc, div_self hden, mul_one, div_one]

/-- Witness for C7 at the concrete input ν = 1, logsij0 = 0, E_low = 5. -/
theorem SijT_roundtrip_at_Tref_witness :
    (0:ℝ) < 1 ∧ SijT Tref 0 1 5 1 = Real.exp 0 :=
  ⟨by norm_num, SijT_roundtrip_at_Tref 0 1 5 (by norm_num)⟩

/-- Modelled from the spec (the Python body of `exojax.spec.exomol.gamma_exomol`
is not in the sources): pressure-broadening Lorentz half width, a power law in
temperature and linear in pressure, built from the per-line temperature
exponent `n_Texp` and reference broadening coefficient `alpha_ref`. -/
noncomputable def gamma_exomol (P T n_Texp alpha_ref : ℝ) : ℝ :=
  alpha_ref * P * (Tref / T) ^ n_Texp

/-- Modelled from the spec (the Python body of `exojax.spec.gamma_natural` is
not in the sources): natural broadening, proportional to the Einstein A
coefficient, γ_nat = A / (4π c) with c in cm/s. -/
noncomputable def gamma_natural (A : ℝ) : ℝ := A / (4 * Real.pi * 29979245800)

/-- Pressure-broadening matrix [layer × line], the tutorial's
`gammaLMP = jit(vmap(gamma_exomol,(0,0,None,None)))(Parr,Tarr,n_Texp,alpha_ref)`:
each layer (P, T) is paired with the full per-line parameter arrays. -/
noncomputable def gammaLMP (Parr Tarr n_Texp alpha_ref : List ℝ) : List (List ℝ) :=
  List.zipWith
    (fun P T => List.zipWith (fun n a => gamma_exomol P T n a) n_Texp alpha_ref)
    Parr Tarr

/-- Natural-broadening vector [line], the tutorial's `gammaLMN = gamma_natural(A)`. -/
noncomputable def gammaLMN (A : List ℝ) : List ℝ := A.map gamma_natural

/-- Total Lorentz-width matrix [layer × line], the tutorial's
`gammaLM = gammaLMP + gammaLMN[None,:]` (the natural vector is broadcast,
unchanged, over the layer axis). -/
noncomputable def gammaLM (Parr Tarr n_Texp alpha_ref A : List ℝ) : List (List ℝ) :=
  (gammaLMP Parr Tarr n_Texp alpha_ref).map
    (fun row => List.zipWith (· + ·) row (gammaLMN A))

/-- C8: every entry (layer i, line l) of the Lorentz-width matrix is the sum of
the pressure-broadening term gamma_exomol (a power law in temperature, linear
in pressure, using the per-line exponent and reference broadening coefficient)
and of the natural-broadening term gamma_natural (proportional to the
line's Einstein A coefficient and, as the right-hand side shows, independent
of the layer index i). -/
theorem gammaLM_decomposition (Parr Tarr n_Texp alpha_ref A : List ℝ) (i l : ℕ)
    (hiP : i < Parr.length) (hiT : i < Tarr.length)
    (hln : l < n_Texp.length) (hla : l < alpha_ref.length) (hlA : l < A.length) :
    ((gammaLM Parr Tarr n_Texp alpha_ref A).getD i []).getD l 0 =
      gamma_exomol (Parr.getD i 0) (Tarr.getD i 0)
          (n_Texp.getD l 0) (alpha_ref.getD l 0)
        + gamma_natural (A.getD l 0) ∧
    (∀ c P T n a, gamma_exomol (c * P) T n a = c * gamma_exomol P T n a) ∧
    (∀ a b, gamma_natural (a + b) = gamma_natural a + gamma_natural b) := by
  refine ⟨?_, ?_, ?_⟩
  · have hiM : i < (gammaLMP Parr Tarr n_Texp alpha_ref).length := by
      simp only [gammaLMP, List.length_zipWith]
      omega
    have hrow : (gammaLM Parr Tarr n_Texp alpha_ref A).getD i [] =
        List.zipWith (· + ·)
          (List.zipWith (fun n a => gamma_exomol (Parr.getD i 0) (Tarr.getD i 0) n a)
            n_Texp alpha_ref)
          (gammaLMN A) := by
      rw [gammaLM, List.getD_eq_getElem _ _ (by simpa using hiM), List.getElem_map]
      simp only [gammaLMP]
      rw [List.getElem_zipWith]
      rw [List.getD_eq_getElem _ _ hiP, List.getD_eq_getElem _ _ hiT]
    rw [hrow]
    rw [List.getD_eq_getElem _ _ (by simp [gammaLMN]; omega), List.getElem_zipWith,
      List.getElem_zipWith]
    simp only [gammaLMN]
    rw [List.getElem_map]
    rw [List.getD_eq_getElem _ _ hln, List.getD_eq_getElem _ _ hla,
      List.getD_eq_getElem _ _ hlA]
  · intro c P T n a
    unfold gamma_exomol
    ring
  · intro a b
    unfold gamma_natural
    ring

/-- Witness for C8 at a concrete one-layer, one-line input. -/
theorem gammaLM_decomposition_witness :
    (0 < [(2:ℝ)].length ∧ 0 < [(500:ℝ)].length ∧
       0 < [(1:ℝ)/2].length ∧ 0 < [(3:ℝ)/100].length ∧ 0 < [(10:ℝ)].length) ∧
    (((gammaLM [2] [500] [1/2] [3/100] [10]).getD 0 []).getD 0 0 =
        gamma_exomol (([(2:ℝ)]).getD 0 0) (([(500:ℝ)]).getD 0 0)
            (([(1:ℝ)/2]).getD 0 0) (([(3:ℝ)/100]).getD 0 0)
          + gamma_natural (([(10:ℝ)]).getD 0 0) ∧
      (∀ c P T n a, gamma_exomol (c * P) T n a = c * gamma_exomol P T n a) ∧
      (∀ a b, gamma_natural (a + b) = gamma_natural a + gamma_natural b)) :=
  ⟨⟨by norm_num, by norm_num, by norm_num, by norm_num, by norm_num⟩,
    gammaLM_decomposition [2] [500] [1/2] [3/100] [10] 0 0
      (by norm_num) (by norm_num) (by norm_num) (by norm_num) (by norm_num)⟩

/-- Modelled from the spec (the Python body of `initspec.init_modit` and its
helper `npgetix` are not in the sources): the np.interp-style continuous index
position of `x` on the grid `xv`, scanning the grid intervals and returning
`i + (x − xv i)/(xv (i+1) − xv i)` for the bracketing interval, a real-valued
index between 0 and N−1 for in-range `x`. -/
def contPos (x : ℚ) : List ℚ → ℕ → ℚ
  | [], _ => 0
  | [_], i => (i : ℚ)
  | a :: b :: rest, i =>
      if x ≤ b then (i : ℚ) + (x - a) / (b - a) else contPos x (b :: rest) (i + 1)

/-- Modelled from the spec: `npgetix` as used by `init_modit` — floor the
continuous position to an integer neighbor index and keep the fractional
part `cnu`, the linear interpolation weight of the next neighbor (the floor
neighbor gets the complement `1 − cnu`). -/
def npgetix (x : ℚ) (xv : List ℚ) : ℚ × ℤ :=
  (contPos x xv 0 - ⌊contPos x xv 0⌋, ⌊contPos x xv 0⌋)

/-- C4: for a line whose center lies inside the wavenumber grid range, the two
wavenumber-neighbor interpolation weights produced by the indexer — `cnu` for
the upper neighbor and `1 − cnu` for the floor neighbor — are each in [0, 1]
and sum exactly to 1. -/
theorem init_modit_weights (x : ℚ) (xv : List ℚ)
    (hlo : xv.headD 0 ≤ x) (hhi : x ≤ xv.getLastD 0) :
    0 ≤ (npgetix x xv).1 ∧ (npgetix x xv).1 ≤ 1 ∧
      0 ≤ 1 - (npgetix x xv).1 ∧ 1 - (npgetix x xv).1 ≤ 1 ∧
      (1 - (npgetix x xv).1) + (npgetix x xv).1 = 1 := by
  have h0 : (npgetix x xv).1 = Int.fract (contPos x xv 0) := rfl
  have hn := Int.fract_nonneg (contPos x xv 0)
  have hl := Int.fract_lt_one (contPos x xv 0)
  refine ⟨by rw [h0]; exact hn, by rw [h0]; linarith, by rw [h0]; linarith,
    by rw [h0]; linarith, by ring⟩

/-- Witness for C4 at the concrete line center x = 3 on the grid [1, 2, 4]. -/
theorem init_modit_weights_witness :
    (([(1:ℚ), 2, 4]).headD 0 ≤ 3 ∧ (3:ℚ) ≤ ([(1:ℚ), 2, 4]).getLastD 0) ∧
      (0 ≤ (npgetix 3 [1, 2, 4]).1 ∧ (npgetix 3 [1, 2, 4]).1 ≤ 1 ∧
        0 ≤ 1 - (npgetix 3 [1, 2, 4]).1 ∧ 1 - (npgetix 3 [1, 2, 4]).1 ≤ 1 ∧
        (1 - (npgetix 3 [1, 2, 4]).1) + (npgetix 3 [1, 2, 4]).1 = 1) :=
  ⟨⟨by norm_num, by norm_num⟩, init_modit_weights 3 [1, 2, 4] (by norm_num) (by norm_num)⟩

/-- Minimum of a layer's width row, numpy-style fold. -/
def listMin (xs : List ℚ) : ℚ := xs.foldl min (xs.headD 0)

/-- Maximum of a layer's width row, numpy-style fold. -/
def listMax (xs : List ℚ) : ℚ := xs.foldl max (xs.headD 0)

lemma foldl_min_le_init (xs : List ℚ) : ∀ a : ℚ, xs.foldl min a ≤ a := by
  induction xs with
  | nil => intro a; exact le_refl a
  | cons y t ih =>
      intro a
      calc List.foldl min (min a y) t ≤ min a y := ih (min a y)
        _ ≤ a := min_le_left a y

lemma foldl_min_le_mem (xs : List ℚ) (x : ℚ) (hx : x ∈ xs) :
    ∀ a : ℚ, xs.foldl min a ≤ x := by
  induction xs with
  | nil => cases hx
  | cons y t ih =>
      intro a
      rcases List.mem_cons.mp hx with h | h
      · subst h
        calc List.foldl min (min a x) t ≤ min a x := foldl_min_le_init t _
          _ ≤ x := min_le_right a x
      · exact ih h (min a y)

lemma init_le_foldl_max (xs : List ℚ) : ∀ a : ℚ, a ≤ xs.foldl max a := by
  induction xs with
  | nil => intro a; exact le_refl a
  | cons y t ih =>
      intro a
      calc a ≤ max a y := le_max_left a y
        _ ≤ List.foldl max (max a y) t := ih (max a y)

lemma mem_le_foldl_max (xs : List ℚ) (x : ℚ) (hx : x ∈ xs) :
    ∀ a : ℚ, x ≤ xs.foldl max a := by
  induction xs with
  | nil => cases hx
  | cons y t ih =>
      intro a
      rcases List.mem_cons.mp hx with h | h
      · subst h
        calc x ≤ max a x := le_max_right a x
          _ ≤ List.foldl max (max a x) t := init_le_foldl_max t _
      · exact ih h (max a y)

lemma listMin_le_mem (xs : List ℚ) (x : ℚ) (hx : x ∈ xs) : listMin xs ≤ x :=
  foldl_min_le_mem xs x hx _

lemma mem_le_listMax (xs : List ℚ) (x : ℚ) (hx : x ∈ xs) : x ≤ listMax xs :=
  mem_le_foldl_max xs x hx _

lemma listMin_le_listMax (xs : List ℚ) : listMin xs ≤ listMax xs := by
  cases xs with
  | nil => exact le_refl _
  | cons y t =>
      calc listMin (y :: t) ≤ y := listMin_le_mem _ y (List.mem_cons_self y t)
        _ ≤ listMax (y :: t) := mem_le_listMax _ y (List.mem_cons_self y t)

/-- Modelled from the spec (the Python body of `modit.dgmatrix` is not in the
sources): per-layer broadening grid represented by the log10 values of its
points. For one layer with log-widths `lws`, take lmin/lmax over the layer,
Ng = ⌊(lmax − lmin)/res⌋ + 2 points, and return the arithmetic progression
from lmin to lmax in log space (i.e. the geometric grid from min width to max
width with log spacing ≈ res). -/
def ditgrid_log (lws : List ℚ) (res : ℚ) : List ℚ :=
  (List.range ((⌊(listMax lws - listMin lws) / res⌋).toNat + 2)).map
    (fun k : ℕ => listMin lws +
      (k : ℚ) * (listMax lws - listMin lws) /
        ((((⌊(listMax lws - listMin lws) / res⌋).toNat + 2 : ℕ) : ℚ) - 1))

/-- Modelled from the spec: `modit.dgmatrix` applies the per-layer grid
builder to every layer row of the normalized-width matrix. -/
def dgmatrix (lwM : List (List ℚ)) (res : ℚ) : List (List ℚ) :=
  lwM.map (fun lws => ditgrid_log lws res)

lemma ditgrid_log_length (lws : List ℚ) (res : ℚ) :
    (ditgrid_log lws res).length = (⌊(listMax lws - listMin lws) / res⌋).toNat + 2 := by
  rw [ditgrid_log, List.length_map, List.length_range]

lemma ditgrid_log_getD (lws : List ℚ) (res : ℚ) (k : ℕ)
    (hk : k < ((⌊(listMax lws - listMin lws) / res⌋).toNat + 2)) :
    (ditgrid_log lws res).getD k 0 =
      listMin lws + (k : ℚ) * (listMax lws - listMin lws) /
        ((((⌊(listMax lws - listMin lws) / res⌋).toNat + 2 : ℕ) : ℚ) - 1) := by
  have hk2 : k < (ditgrid_log lws res).length := by
    rw [ditgrid_log_length]
    exact hk
  rw [List.getD_eq_getElem _ _ hk2]
  simp only [ditgrid_log, List.getElem_map, List.getElem_range]

/-- C5: for every layer, the broadening-parameter grid built by dgmatrix (in
log space) is non-decreasing, has length ≥ 2 even for degenerate layers, and
brackets the layer's normalized widths: its first (minimum) point is ≤ every
layer width and its last (maximum) point is ≥ every layer width. -/
theorem dgmatrix_grid_props (lwM : List (List ℚ)) (res : ℚ) (i : ℕ)
    (hi : i < lwM.length) :
    2 ≤ ((dgmatrix lwM res).getD i []).length ∧
      (∀ k, k + 1 < ((dgmatrix lwM res).getD i []).length →
        ((dgmatrix lwM res).getD i []).getD k 0 ≤
          ((dgmatrix lwM res).getD i []).getD (k + 1) 0) ∧
      (∀ w ∈ lwM.getD i [],
        ((dgmatrix lwM res).getD i []).getD 0 0 ≤ w ∧
          w ≤ ((dgmatrix lwM res).getD i []).getD
                (((dgmatrix lwM res).getD i []).length - 1) 0) := by
  have hrow : (dgmatrix lwM res).getD i [] = ditgrid_log (lwM.getD i []) res := by
    rw [dgmatrix, List.getD_eq_getElem _ _ (by simpa using hi), List.getElem_map]
    rw [List.getD_eq_getElem _ _ hi]
  set ws := lwM.getD i [] with hws
  obtain ⟨t, ht⟩ : ∃ t, (⌊(listMax ws - listMin ws) / res⌋).toNat = t := ⟨_, rfl⟩
  have hlen : (ditgrid_log ws res).length = t + 2 := by
    rw [ditgrid_log_length, ht]
  have hD : (0:ℚ) < ((t + 2 : ℕ) : ℚ) - 1 := by
    push_cast
    linarith [Nat.cast_nonneg (α := ℚ) t]
  have hΔ : (0:ℚ) ≤ listMax ws - listMin ws := by
    have := listMin_le_listMax ws
    linarith
  refine ⟨?_, ?_, ?_⟩
  · rw [hrow, hlen]
    omega
  · intro k hk
    rw [hrow, hlen] at hk
    rw [hrow, ditgrid_log_getD ws res k (by rw [ht]; omega),
      ditgrid_log_getD ws res (k + 1) (by rw [ht]; omega), ht]
    have hstep : (k : ℚ) * (listMax ws - listMin ws) ≤
        ((k : ℚ) + 1) * (listMax ws - listMin ws) := by nlinarith
    have hdiv := (div_le_div_iff_of_pos_right hD).mpr hstep
    push_cast
    push_cast at hdiv
    linarith
  · intro w hw
    constructor
    · rw [hrow, ditgrid_log_getD ws res 0 (by omega)]
      simpa using listMin_le_mem ws w hw
    · rw [hrow, hlen]
      rw [ditgrid_log_getD ws res (t + 2 - 1) (by rw [ht]; omega), ht]
      have hlast : ((t + 2 - 1 : ℕ) : ℚ) = ((t + 2 : ℕ) : ℚ) - 1 := by push_cast; ring
      rw [hlast, mul_div_cancel_left₀ _ (ne_of_gt hD)]
      have := mem_le_listMax ws w hw
      linarith

/-- Witness for C5 at the concrete one-layer width matrix [[1, 3]], res = 1/2. -/
theorem dgmatrix_grid_props_witness :
    0 < ([[(1:ℚ), 3]]).length ∧
      (2 ≤ ((dgmatrix [[(1:ℚ), 3]] (1/2)).getD 0 []).length ∧
        (∀ k, k + 1 < ((dgmatrix [[(1:ℚ), 3]] (1/2)).getD 0 []).length →
          ((dgmatrix [[(1:ℚ), 3]] (1/2)).getD 0 []).getD k 0 ≤
            ((dgmatrix [[(1:ℚ), 3]] (1/2)).getD 0 []).getD (k + 1) 0) ∧
        (∀ w ∈ ([[(1:ℚ), 3]]).getD 0 [],
          ((dgmatrix [[(1:ℚ), 3]] (1/2)).getD 0 []).getD 0 0 ≤ w ∧
            w ≤ ((dgmatrix [[(1:ℚ), 3]] (1/2)).getD 0 []).getD
                  (((dgmatrix [[(1:ℚ), 3]] (1/2)).getD 0 []).length - 1) 0)) :=
  ⟨by norm_num, dgmatrix_grid_props [[(1:ℚ), 3]] (1/2) 0 (by norm_num)⟩

/-- Per-line data entering the synthesizer's binning step for one layer:
the layer line strength, the wavenumber fractional weight `cnu` with floor
neighbor index `inu` (from init_modit), and the broadening-grid fractional
weight `cgam` with lower bucket index `jgam` (from the dgmatrix bracketing). -/
structure LineContrib where
  strength : ℚ
  cnu : ℚ
  inu : ℕ
  cgam : ℚ
  jgam : ℕ

/-- Wavenumber-neighbor scatter weight: the floor neighbor `i` receives
`1 − c`, the next neighbor `i + 1` receives `c`, all other bins 0. -/
def wnu (c : ℚ) (i k : ℕ) : ℚ :=
  if k = i then 1 - c else if k = i + 1 then c else 0

/-- Broadening-grid-neighbor scatter weight: the lower bracketing bucket `j`
receives `1 − c`, the upper bucket `j + 1` receives `c`, all other buckets 0. -/
def wgam (c : ℚ) (j b : ℕ) : ℚ :=
  if b = j then 1 - c else if b = j + 1 then c else 0

/-- Modelled from the spec (the Python bodies of `modit.xsmatrix` and its
`inc2D`-style binning helper are not in the sources): the binned line-strength
buffer (pre-convolution) of one layer, for broadening bucket `b` at wavenumber
bin `k` — each line scatter-adds its strength under the bilinear
wavenumber-neighbor × broadening-grid-neighbor weights. -/
def lsd (lines : List LineContrib) (b k : ℕ) : ℚ :=
  (lines.map (fun L => L.strength * wnu L.cnu L.inu k * wgam L.cgam L.jgam b)).sum

lemma wnu_split (c : ℚ) (i k : ℕ) :
    wnu c i k = (if k = i then 1 - c else 0) + (if k = i + 1 then c else 0) := by
  unfold wnu
  by_cases h1 : k = i
  · have h2 : ¬ k = i + 1 := by omega
    simp [h1, h2]
  · by_cases h2 : k = i + 1 <;> simp [h1, h2]

lemma sum_wnu (c : ℚ) (i N : ℕ) (h : i + 1 < N) :
    (Finset.range N).sum (fun k => wnu c i k) = 1 := by
  rw [Finset.sum_congr rfl (fun k _ => wnu_split c i k), Finset.sum_add_distrib]
  rw [Finset.sum_ite_eq' (Finset.range N) i (fun _ => 1 - c)]
  rw [Finset.sum_ite_eq' (Finset.range N) (i + 1) (fun _ => c)]
  have h1 : i ∈ Finset.range N := Finset.mem_range.mpr (by omega)
  have h2 : i + 1 ∈ Finset.range N := Finset.mem_range.mpr h
  rw [if_pos h1, if_pos h2]
  ring

/-- C6: the sum of the binned line-strength buffer (pre-convolution) over all
wavenumber bins equals the sum of the per-line strengths assigned to that
layer/bucket (each line's strength times its broadening-bucket weight): the
binning step neither loses nor duplicates total line strength. -/
theorem lsd_strength_conservation (lines : List LineContrib) (N b : ℕ)
    (h : ∀ L ∈ lines, L.inu + 1 < N) :
    (Finset.range N).sum (fun k => lsd lines b k) =
      (lines.map (fun L => L.strength * wgam L.cgam L.jgam b)).sum := by
  induction lines with
  | nil => simp [lsd]
  | cons L t ih =>
      have hL : L.inu + 1 < N := h L (List.mem_cons_self L t)
      have ht : ∀ L' ∈ t, L'.inu + 1 < N := fun L' hL' => h L' (List.mem_cons_of_mem L hL')
      have hsplit : ∀ k, lsd (L :: t) b k =
          L.strength * wnu L.cnu L.inu k * wgam L.cgam L.jgam b + lsd t b k := by
        intro k
        simp [lsd]
      rw [Finset.sum_congr rfl (fun k _ => hsplit k), Finset.sum_add_distrib, ih ht]
      simp only [List.map_cons, List.sum_cons]
      congr 1
      have hpull : (Finset.range N).sum
            (fun k => L.strength * wnu L.cnu L.inu k * wgam L.cgam L.jgam b) =
          (L.strength * wgam L.cgam L.jgam b) *
            (Finset.range N).sum (fun k => wnu L.cnu L.inu k) := by
        rw [Finset.mul_sum]
        exact Finset.sum_congr rfl (fun k _ => by ring)
      rw [hpull, sum_wnu _ _ _ hL, mul_one]

/-- Witness for C6 at a concrete two-line buffer on a 3-bin grid. -/
theorem lsd_strength_conservation_witness :
    (∀ L ∈ [LineContrib.mk 1 (1/3) 0 (1/4) 0, LineContrib.mk 2 (1/2) 1 0 0],
        L.inu + 1 < 3) ∧
      (Finset.range 3).sum
          (fun k => lsd [LineContrib.mk 1 (1/3) 0 (1/4) 0,
            LineContrib.mk 2 (1/2) 1 0 0] 0 k) =
        (([LineContrib.mk 1 (1/3) 0 (1/4) 0, LineContrib.mk 2 (1/2) 1 0 0]).map
          (fun L => L.strength * wgam L.cgam L.jgam 0)).sum :=
  ⟨by decide, lsd_strength_conservation _ 3 0 (by decide)⟩

/-- Exact-arithmetic circular convolution on an N-point grid: the composition
FFT → elementwise product → inverse FFT used by the synthesizer equals, in
exact arithmetic, the circular convolution of the binned buffer with the
kernel row. -/
def circconv (N : ℕ) (f g : ℕ → ℚ) (k : ℕ) : ℚ :=
  (Finset.range N).sum (fun m => f m * g ((k + N - m % N) % N))

/-- One layer's input to the synthesizer: its binned line records, the number
of broadening-grid buckets from dgmatrix, and the precomputed profile kernel
row for each bucket (`kern b o` = kernel value of bucket `b` at grid offset
`o`). -/
structure LayerInput where
  lines : List LineContrib
  nbuckets : ℕ
  kern : ℕ → ℕ → ℚ

/-- Modelled from the spec: one layer's cross-section row — for each
broadening-grid bucket, convolve the binned strength buffer with that
bucket's profile kernel, then sum the bucket contributions. -/
def xsrow (N : ℕ) (Li : LayerInput) (k : ℕ) : ℚ :=
  (Finset.range Li.nbuckets).sum (fun b => circconv N (lsd Li.lines b) (Li.kern b) k)

/-- Modelled from the spec: `modit.xsmatrix` — the cross-section matrix, one
row per layer, one column per wavenumber grid point, with no clipping of the
convolution output (the tutorial checks `xsm[xsm<0.0]` after the call and
removes negatives itself). -/
def xsmatrix (N : ℕ) (layers : List LayerInput) : List (List ℚ) :=
  layers.map (fun Li => (List.range N).map (fun k => xsrow N Li k))

/-- The caller-side cleanup from the tutorial, `xsm = jnp.abs(xsm)`: absolute
value of every entry, applied after `xsmatrix` returns. -/
def abs_cleanup (xs : List (List ℚ)) : List (List ℚ) :=
  xs.map (fun row => row.map (fun v => |v|))

/-- C2: the cross-section matrix returned by the synthesizer has exactly one
row per layer and one column per wavenumber grid point (shape
[num_layers × num_wavenumber_points]); in this exact-arithmetic model every
entry is a well-defined (finite) rational by totality of the definition. -/
theorem xsmatrix_shape (N : ℕ) (layers : List LayerInput) :
    (xsmatrix N layers).length = layers.length ∧
      ∀ row ∈ xsmatrix N layers, row.length = N := by
  constructor
  · rw [xsmatrix, List.length_map]
  · intro row hrow
    obtain ⟨Li, _, rfl⟩ := List.mem_map.mp hrow
    rw [List.length_map, List.length_range]

/-- Witness for C2 at a concrete one-layer input on a 2-point grid. -/
theorem xsmatrix_shape_witness :
    (xsmatrix 2 [LayerInput.mk [LineContrib.mk 1 0 0 0 0] 1 (fun _ _ => 1)]).length =
        ([LayerInput.mk [LineContrib.mk 1 0 0 0 0] 1 (fun _ _ => 1)]).length ∧
      ∀ row ∈ xsmatrix 2 [LayerInput.mk [LineContrib.mk 1 0 0 0 0] 1 (fun _ _ => 1)],
        row.length = 2 :=
  xsmatrix_shape 2 [LayerInput.mk [LineContrib.mk 1 0 0 0 0] 1 (fun _ _ => 1)]

/-- C9: the synthesizer is a pure function of its inputs — two calls with
equal inputs (same grid size, same per-layer line arrays, bucket counts and
kernels) return equal cross-section matrices; there is no hidden state in the
model for a second call to depend on. -/
theorem xsmatrix_deterministic (N1 N2 : ℕ) (L1 L2 : List LayerInput)
    (hN : N1 = N2) (hL : L1 = L2) : xsmatrix N1 L1 = xsmatrix N2 L2 := by
  subst hN
  subst hL
  rfl

/-- Witness for C9: two calls on the same concrete input agree. -/
theorem xsmatrix_deterministic_witness :
    (2 = 2 ∧ [LayerInput.mk [LineContrib.mk 1 0 0 0 0] 1 (fun _ _ => 1)] =
        [LayerInput.mk [LineContrib.mk 1 0 0 0 0] 1 (fun _ _ => 1)]) ∧
      xsmatrix 2 [LayerInput.mk [LineContrib.mk 1 0 0 0 0] 1 (fun _ _ => 1)] =
        xsmatrix 2 [LayerInput.mk [LineContrib.mk 1 0 0 0 0] 1 (fun _ _ => 1)] :=
  ⟨⟨rfl, rfl⟩, xsmatrix_deterministic 2 2 _ _ rfl rfl⟩

/-- C10: on a concrete input whose kernel row carries a small negative value
(as the FFT round-off does in the tutorial run, which reports 4552 negative
entries with minimum ≈ −1.107e−22), the matrix returned by `xsmatrix` itself
contains a negative entry — no clipping happens inside the synthesizer — and
the caller-side `abs_cleanup` (the tutorial's `jnp.abs`) removes it. -/
theorem xsmatrix_returns_negative_entries :
    ((xsmatrix 2 [LayerInput.mk [LineContrib.mk 1 0 0 0 0] 1
        (fun _ o => if o = 1 then -(1/1000000) else 1)]).getD 0 []).getD 1 0 < 0 ∧
      0 ≤ ((abs_cleanup (xsmatrix 2 [LayerInput.mk [LineContrib.mk 1 0 0 0 0] 1
        (fun _ o => if o = 1 then -(1/1000000) else 1)])).getD 0 []).getD 1 0 := by
  constructor
  · norm_num [xsmatrix, xsrow, circconv, lsd, wnu, wgam, List.range_succ,
      Finset.sum_range_succ]
  · norm_num [abs_cleanup, xsmatrix, xsrow, circconv, lsd, wnu, wgam, List.range_succ,
      Finset.sum_range_succ]

/-- Counterexample for C3 as stated: the synthesizer performs no local
clipping, so its returned matrix can contain a negative entry (here at a
concrete input with line strength 2 and a kernel row carrying −1/512). -/
theorem xsmatrix_not_clipped_cex :
    ((xsmatrix 2 [LayerInput.mk [LineContrib.mk 2 0 0 0 0] 1
        (fun _ o => if o = 1 then -(1/512) else 1)]).getD 0 []).getD 1 0 < 0 := by
  norm_num [xsmatrix, xsrow, circconv, lsd, wnu, wgam, List.range_succ,
    Finset.sum_range_succ]

lemma getD_abs_row (row : List ℚ) (k : ℕ) :
    0 ≤ (row.map (fun v => |v|)).getD k 0 := by
  by_cases hk : k < (row.map (fun v => |v|)).length
  · rw [List.getD_eq_getElem _ _ hk, List.getElem_map]
    exact abs_nonneg _
  · rw [List.getD_eq_default _ _ (by omega)]

/-- C3 (amended): negative FFT round-off values are not corrected inside the
synthesizer and no threshold-based hard error exists; the cleanup is the
caller's absolute-value step after `xsmatrix` returns, and after that
caller-side cleanup every entry of the cross-section matrix is ≥ 0. -/
theorem xsmatrix_nonneg_after_caller_cleanup (N : ℕ) (layers : List LayerInput)
    (i k : ℕ) :
    0 ≤ ((abs_cleanup (xsmatrix N layers)).getD i []).getD k 0 := by
  by_cases hi : i < (abs_cleanup (xsmatrix N layers)).length
  · have hrow : (abs_cleanup (xsmatrix N layers)).getD i [] =
        ((xsmatrix N layers).getD i []).map (fun v => |v|) := by
      rw [abs_cleanup, List.getD_eq_getElem _ _ (by simpa [abs_cleanup] using hi),
        List.getElem_map]
      rw [List.getD_eq_getElem _ _ (by simpa [abs_cleanup] using hi)]
    rw [hrow]
    exact getD_abs_row _ _
  · have hrow : (abs_cleanup (xsmatrix N layers)).getD i [] = [] :=
      List.getD_eq_default _ _ (by omega)
    rw [hrow]
    simp [List.getD]

end Exojax
